import Mathlib

/-! Embedding of `googios/utils.py` interval algebra. -/

/-- Lexicographic order on pairs, as Python compares tuples. -/
def pairLe (a b : Int × Int) : Prop := a.1 < b.1 ∨ (a.1 = b.1 ∧ a.2 ≤ b.2)

instance : DecidableRel pairLe := fun a b => by unfold pairLe; infer_instance

instance : IsTotal (Int × Int) pairLe := ⟨by intro a b; unfold pairLe; omega⟩

instance : IsTrans (Int × Int) pairLe := ⟨by intro a b c h1 h2; unfold pairLe at *; omega⟩

instance : IsAntisymm (Int × Int) pairLe := ⟨by
  intro a b h1 h2
  unfold pairLe at h1 h2
  have h3 : a.1 = b.1 ∧ a.2 = b.2 := by omega
  exact Prod.ext_iff.mpr h3⟩

/-- Python `sorted` on a list of pairs (lexicographic, and since the order is
antisymmetric the sorted permutation is unique, so the choice of sorting
algorithm is irrelevant). -/
def sortPairs (l : List (Int × Int)) : List (Int × Int) := List.insertionSort pairLe l

/-- The merge condition on line 195 of `utils.py`:
`old[0] <= new[0] <= old[1] or old[0] <= new[1] <= old[1]`. -/
def touches (old new : Int × Int) : Prop :=
  (old.1 ≤ new.1 ∧ new.1 ≤ old.2) ∨ (old.1 ≤ new.2 ∧ new.2 ≤ old.2)

instance : ∀ old new, Decidable (touches old new) := fun old new => by
  unfold touches; infer_instance

/-- The `for counter, new in enumerate(new_intervals): ... else: append` body of
`merge_intervals`: scan `new_intervals` left to right, replace the first entry
that satisfies the merge condition with the merged hull, otherwise append `old`
at the end. -/
def insertOld (old : Int × Int) : List (Int × Int) → List (Int × Int)
  | [] => [old]
  | new :: rest =>
    if touches old new then (min old.1 new.1, max old.2 new.2) :: rest
    else new :: insertOld old rest

/-- One iteration of the `while sorted_intervals` loop of `merge_intervals`
followed by the final `new_intervals.sort()`: elements are popped from the back
of the sorted list (hence the `reverse`) and inserted one by one. -/
def onePass (l : List (Int × Int)) : List (Int × Int) :=
  sortPairs (((sortPairs l).reverse).foldl (fun acc old => insertOld old acc) [])

/-- Termination measure for the fixpoint recursion of `merge_intervals`. -/
def mergeMeasure (l : List (Int × Int)) : Nat :=
  2 * l.length + (if sortPairs l = l then 0 else 1)

/-- Fuelled fixpoint recursion of `merge_intervals`: recurse on the merged list
until it equals the input.  `mergeAux_fuel_irrelevant` below shows the fuel
provided by `merge_intervals` always suffices. -/
def mergeAux : Nat → List (Int × Int) → List (Int × Int)
  | 0, l => l
  | fuel+1, l =>
    let n := onePass l
    if l = n then n else mergeAux fuel n

/-- `merge_intervals` from `utils.py` (lines 188-205). -/
def merge_intervals (l : List (Int × Int)) : List (Int × Int) :=
  mergeAux (2 * l.length + 2) l

/-- `t` belongs to the (closed) interval `p`. -/
def inIv (t : Int) (p : Int × Int) : Prop := p.1 ≤ t ∧ t ≤ p.2

/-- `t` belongs to the union of the intervals of `l`, seen as sets of points. -/
def memU (t : Int) (l : List (Int × Int)) : Prop := ∃ p ∈ l, inIv t p

/-- Python-level failures surfaced by the embedded code. -/
inductive PyErr where
  | indexError
  | attributeError
  | typeError
  | valueError
  | ioError
deriving DecidableEq, Repr

instance {e a : Type} [DecidableEq e] [DecidableEq a] : DecidableEq (Except e a)
  | .error x, .error y =>
    if h : x = y then .isTrue (by rw [h]) else .isFalse (fun hc => h (by cases hc; rfl))
  | .error _, .ok _ => .isFalse (fun hc => nomatch hc)
  | .ok _, .error _ => .isFalse (fun hc => nomatch hc)
  | .ok x, .ok y =>
    if h : x = y then .isTrue (by rw [h]) else .isFalse (fun hc => h (by cases hc; rfl))

/-- The `while True` loop of `find_overlaps` (utils.py lines 213-219): at each
round, `analysed` holds the interval popped from the front of the sorted list;
every interval of the remaining list whose start precedes the end of `analysed`
(the `takewhile`) contributes its clipped overlap with `analysed`; the loop
stops when the list is exhausted, otherwise the next front element is popped. -/
def overlapsLoop : (Int × Int) → List (Int × Int) → List (Int × Int)
  | _, [] => []
  | a, b :: rest =>
    (((b :: rest).takeWhile (fun i => decide (i.1 < a.2))).map
      (fun i => (i.1, min i.2 a.2))) ++ overlapsLoop b rest

/-- `find_overlaps` from `utils.py` (lines 208-220).  `sorted_intervals.pop(0)`
on an empty list raises `IndexError`, hence the `Except`. -/
def find_overlaps (intervals : List (Int × Int)) :
    Except PyErr (List (Int × Int)) :=
  match sortPairs intervals with
  | [] => .error .indexError
  | a :: rest => .ok (merge_intervals (overlapsLoop a rest))

/-! Textual layer for the cache store (`roster.py` `_save_cache`/`load_cache`):
rows are tab-delimited fields, instants are rendered in decimal and re-parsed
on load (modelling `str`/`dateutil.parser.parse` on timezone-aware instants,
which round-trip). -/

/-- Numeric value of a decimal digit character. -/
def charDigit (c : Char) : Nat := c.toNat - 48

/-- `c` is one of '0'..'9'. -/
def isDigitCh (c : Char) : Bool := decide ('0' ≤ c) && decide (c ≤ '9')

/-- Decimal rendering of a natural number, most significant digit first
(structural on a fuel argument so that it reduces in the kernel; the fuel
`n` always suffices since a number has at most `n` digits). -/
def natCharsAux : Nat -> Nat -> List Char
  | 0, _ => []
  | fuel+1, n =>
    if n = 0 then []
    else natCharsAux fuel (n / 10) ++ [Nat.digitChar (n % 10)]

def natChars (n : Nat) : List Char := if n = 0 then ['0'] else natCharsAux n n

/-- Numeric value of a big-endian digit string. -/
def parseNatVal (cs : List Char) : Nat :=
  cs.foldl (fun acc c => 10 * acc + charDigit c) 0

/-- Parse a non-empty all-digit string, rejecting anything else. -/
def parseNat (cs : List Char) : Option Nat :=
  if cs ≠ [] ∧ cs.all isDigitCh then some (parseNatVal cs) else none

/-- Decimal rendering of an integer. -/
def intChars (n : Int) : List Char :=
  if n < 0 then '-' :: natChars n.natAbs else natChars n.toNat

/-- Parse an optionally-signed decimal integer. -/
def parseInt : List Char -> Option Int
  | [] => none
  | c :: rest =>
    if c = '-' then (parseNat rest).map (fun (m : Nat) => -(m : Int))
    else (parseNat (c :: rest)).map (fun (m : Nat) => (m : Int))

/-- Join fields with tab separators (the `csv.writer` row format with
`delimiter='\t'` and `QUOTE_NONE`; fields containing the delimiter are not
representable — `csv` would raise — so the round-trip lemmas assume
delimiter-free fields). -/
def joinTab : List (List Char) → List Char
  | [] => []
  | [f] => f
  | f :: fs => f ++ '\t' :: joinTab fs

/-- Split a character list on a separator (`str.split` / the `csv.reader`
side for the tab delimiter). -/
def splitChAux (sep : Char) : List Char → List Char → List (List Char)
  | cur, [] => [cur.reverse]
  | cur, c :: cs =>
    if c = sep then cur.reverse :: splitChAux sep [] cs else splitChAux sep (c :: cur) cs

def splitTab (cs : List Char) : List (List Char) := splitChAux '\t' [] cs

/-! Embedding of `roster.py`. -/

/-- A `Shift` (roster.py lines 17-43).  `stop` embeds the Python attribute
`end` (a Lean keyword).  Instants are integers (UTC minutes); textual fields
are character lists, `none` embedding Python `None`. -/
structure Shift where
  start : Int
  stop : Int
  name : Option (List Char)
  email : Option (List Char)
  phone : Option (List Char)
deriving DecidableEq, Repr

/-- Python `x or None` on an optional string: the empty string is falsy. -/
def orNone : Option (List Char) → Option (List Char)
  | none => none
  | some [] => none
  | some s => some s

/-- `Shift.__init__`: `start`/`end` are normalised instants, `email`/`phone`
pass through `x or None`, `name` is stored untouched. -/
def mkShift (start stop : Int) (name email phone : Option (List Char)) : Shift :=
  ⟨start, stop, name, orNone email, orNone phone⟩

/-- How `csv.writer` renders a field of `Shift.as_tuple`: `None` becomes the
empty string, everything else its text. -/
def strOfOpt : Option (List Char) → List Char
  | none => []
  | some s => s

/-- One cache row: the five fields of `Shift.as_tuple`, tab-delimited
(`_save_cache`, roster.py lines 140-145). -/
def rowOfShift (s : Shift) : List Char :=
  joinTab [intChars s.start, intChars s.stop, strOfOpt s.name,
           strOfOpt s.email, strOfOpt s.phone]

/-- `Roster._save_cache` serialisation: one row per shift, in order. -/
def save_cache (shifts : List Shift) : List (List Char) := shifts.map rowOfShift

/-- `Shift(*row)` applied to the fields `csv.reader` produced for one row:
exactly five fields are required (otherwise `TypeError`), the two instants
must parse (otherwise `dtfy` raises). -/
def shiftOfFields : List (List Char) → Except PyErr Shift
  | [f0, f1, f2, f3, f4] =>
    match parseInt f0, parseInt f1 with
    | some a, some b => .ok (mkShift a b (some f2) (some f3) (some f4))
    | _, _ => .error .valueError
  | _ => .error .typeError

def shiftOfRow (row : List Char) : Except PyErr Shift := shiftOfFields (splitTab row)

/-- `[Shift(*row) for row in reader]`: builds every row's shift, propagating
the first failure. -/
def mapE {α β : Type} (f : α → Except PyErr β) : List α → Except PyErr (List β)
  | [] => .ok []
  | x :: xs =>
    match f x, mapE f xs with
    | .ok y, .ok ys => .ok (y :: ys)
    | .error e, _ => .error e
    | .ok _, .error e => .error e

/-- `Roster.load_cache` (roster.py lines 147-157) on the rows of the cache
file: parse every row, reject an empty cache, and reject a cache whose first
shift starts strictly after `min_end` (both `ValueError`). -/
def load_cache (minEnd : Int) (rows : List (List Char)) : Except PyErr (List Shift) :=
  match mapE shiftOfRow rows with
  | .error e => .error e
  | .ok [] => .error .valueError
  | .ok (d0 :: ds) => if minEnd < d0.start then .error .valueError else .ok (d0 :: ds)

/-- The observable effect of one save/load round-trip on a shift: an absent
name comes back as the empty string, empty-string contact fields come back as
`None`. -/
def normalizeShift (s : Shift) : Shift :=
  { s with name := some (strOfOpt s.name), email := orNone s.email,
           phone := orNone s.phone }

/-- The serialisable shifts: no textual field contains the tab delimiter
(`csv` with `QUOTE_NONE` and no escapechar raises on such fields). -/
def tabFree (s : Shift) : Prop :=
  '\t' ∉ strOfOpt s.name ∧ '\t' ∉ strOfOpt s.email ∧ '\t' ∉ strOfOpt s.phone

instance (s : Shift) : Decidable (tabFree s) := by
  unfold tabFree
  infer_instance

/-- The orchestration state of a `Roster`: the lazily populated in-memory
collection `data` (`self._data`), the persisted cache file (`none` when the
file does not exist, otherwise its modification instant and its rows), the
caching window `minEnd`/`maxStart`, the current instant and the cache timeout
(minutes).  Connection plumbing (`cal_service`, `ppl_client`, `_connected`)
carries no shift data and is not modelled. -/
structure RosterState where
  data : Option (List Shift)
  file : Option (Int × List (List Char))
  minEnd : Int
  maxStart : Option Int
  now : Int
  cacheTimeout : Int
deriving DecidableEq, Repr

/-- `Roster.stale` (roster.py lines 196-202): true when the cache file does
not exist or its age exceeds the timeout. -/
def stale (s : RosterState) : Bool :=
  match s.file with
  | none => true
  | some (ts, _) => decide (s.now - ts > s.cacheTimeout)

/-- `Roster.load_cache` at the state level: `IOError` when the file does not
exist, otherwise parse its rows. -/
def loadCacheSt (s : RosterState) : Except PyErr (List Shift) :=
  match s.file with
  | none => .error .ioError
  | some (_, rows) => load_cache s.minEnd rows

/-- `Roster.update_cache` (roster.py lines 159-168).  The external call
`_get_from_google()` is the parameter `g`: on its failure the method only
logs — neither `self._data` nor the cache file is touched, and no fallback
load happens; on success the in-memory data is replaced and `_save_cache`
rewrites the file (refreshing its timestamp). -/
def update_cache (g : Except Unit (List Shift)) (s : RosterState) : RosterState :=
  match g with
  | .error _ => s
  | .ok d => { s with data := some d, file := some (s.now, save_cache d) }

/-- `Roster._init_data` (roster.py lines 94-107): refresh when stale,
otherwise load the cache, falling back to a refresh when the load raises
`IOError` or `ValueError`. -/
def init_data (g : Except Unit (List Shift)) (s : RosterState) : RosterState :=
  if stale s then update_cache g s
  else
    match loadCacheSt s with
    | .ok d => { s with data := some d }
    | .error _ => update_cache g s

/-- The `Roster.data` property: populate lazily on first access, then return
`self._data` (possibly still `None` if the refresh failed). -/
def dataGet (g : Except Unit (List Shift)) (s : RosterState) :
    RosterState × Option (List Shift) :=
  match s.data with
  | some d => (s, some d)
  | none =>
    let s2 := init_data g s
    (s2, s2.data)

/-- The bypass condition of `Roster.query` (roster.py line 172):
`start < self.min_end or (self.max_start and end > self.max_start)`. -/
def outOfScope (a b : Int) (s : RosterState) : Bool :=
  decide (a < s.minEnd) ||
    (match s.maxStart with
     | some m => decide (b > m)
     | none => false)

/-- The in-scope filter of `Roster.query` (line 179):
`lambda s: s.end > start and s.start < end`. -/
def overlapB (a b : Int) (sh : Shift) : Bool :=
  decide (sh.stop > a) && decide (sh.start < b)

/-- `Roster.query` (roster.py lines 170-181).  `g` is the full-window
external call used by lazy population; `gq` is the range-scoped external call
`_get_from_google(start, end)` used by the bypass branch.  Iterating a `None`
`self.data` (refresh failed during lazy population) raises `TypeError`. -/
def query (g : Except Unit (List Shift)) (gq : Int → Int → List Shift)
    (a b : Int) (s : RosterState) : RosterState × Except PyErr (List Shift) :=
  if outOfScope a b s then
    (s, .ok (gq a b))
  else
    match dataGet g s with
    | (s2, none) => (s2, .error .typeError)
    | (s2, some d) => (s2, .ok (d.filter (overlapB a b)))

/-- Modelled from the spec: the `Roster.runway` attribute read by the CLI
`runway` sub-command (googios.py line 270) is absent from `roster.py`; the
spec defines it as: take the shifts ending after now, merge their intervals
with the interval algebra, and if the earliest merged interval starts
at-or-before now return its end, otherwise return now itself. -/
def runway (now : Int) (shifts : List Shift) : Int :=
  match merge_intervals
      ((shifts.filter (fun sh => decide (sh.stop > now))).map
        (fun sh => (sh.start, sh.stop))) with
  | [] => now
  | f :: _ => if f.1 ≤ now then f.2 else now

/-- The successive file contents observable while `_save_cache` runs
(roster.py lines 140-145): the old content until `open(..., 'wb')` truncates
the file, then every prefix of the new rows as `writerows` appends them, the
last state being the complete new content. -/
def saveStates (old : List (List Char)) (shifts : List Shift) :
    List (List (List Char)) :=
  old :: (List.range (shifts.length + 1)).map (fun k => save_cache (shifts.take k))

/-- A Python value reaching the legacy `Roster.report`: the CLI hands it
timezone-aware datetimes; strings are also modelled since the body assumes
them. -/
inductive PyVal where
  | dt (t : Int)
  | str (s : List Char)

/-- `date_from.split("-")` (roster.py line 245): datetimes have no `split`
attribute, so only the string case returns. -/
def pySplitDash : PyVal → Except PyErr (List (List Char))
  | .str s => .ok (splitChAux '-' [] s)
  | .dt _ => .error .attributeError

/-- The entry statements of the legacy `Roster.report` (roster.py lines
240-248): split both bounds on `"-"`, then evaluate
`datetime.datetime(...)` — but roster.py imports the *class* `datetime`
(`from datetime import datetime`), which has no attribute `datetime`, so this
line raises `AttributeError` unconditionally; everything after it (the
day-by-day loop) is unreachable. -/
def report (dateFrom dateTo : PyVal) : Except PyErr (List (List Char) × List (List Char)) :=
  match pySplitDash dateFrom with
  | .error e => .error e
  | .ok _ =>
    match pySplitDash dateTo with
    | .error e => .error e
    | .ok _ => .error .attributeError

lemma sortPairs_perm (l : List (Int × Int)) : (sortPairs l).Perm l :=
  List.perm_insertionSort _ l

lemma sortPairs_sorted (l : List (Int × Int)) : (sortPairs l).Sorted pairLe :=
  List.sorted_insertionSort _ l

lemma sortPairs_congr {l1 l2 : List (Int × Int)} (h : l1.Perm l2) :
    sortPairs l1 = sortPairs l2 :=
  List.eq_of_perm_of_sorted (r := pairLe)
    ((sortPairs_perm l1).trans (h.trans (sortPairs_perm l2).symm))
    (sortPairs_sorted l1) (sortPairs_sorted l2)

lemma sortPairs_length (l : List (Int × Int)) : (sortPairs l).length = l.length :=
  (sortPairs_perm l).length_eq

lemma sortPairs_idem (l : List (Int × Int)) : sortPairs (sortPairs l) = sortPairs l :=
  List.Sorted.insertionSort_eq (sortPairs_sorted l)

lemma insertOld_length (old : Int × Int) (acc : List (Int × Int)) :
    (insertOld old acc).length = acc.length ∨
    (insertOld old acc).length = acc.length + 1 := by
  induction acc with
  | nil => right; rfl
  | cons new rest ih =>
    by_cases h : touches old new
    · left; simp [insertOld, h]
    · rcases ih with h2 | h2
      · left; simp [insertOld, h, h2]
      · right; simp [insertOld, h, h2]

lemma insertOld_eq_append_of_length {old : Int × Int} {acc : List (Int × Int)}
    (h : (insertOld old acc).length = acc.length + 1) :
    insertOld old acc = acc ++ [old] := by
  induction acc with
  | nil => rfl
  | cons new rest ih =>
    by_cases hc : touches old new
    · exfalso; simp [insertOld, hc] at h
    · simp only [insertOld, if_neg hc] at h ⊢
      simp only [List.length_cons] at h
      rw [ih (by omega)]
      simp

lemma foldl_insert_length_le (olds acc : List (Int × Int)) :
    ((olds.foldl (fun acc old => insertOld old acc) acc)).length ≤
      acc.length + olds.length := by
  induction olds generalizing acc with
  | nil => simp
  | cons o os ih =>
    simp only [List.foldl_cons]
    have h2 := ih (insertOld o acc)
    rcases insertOld_length o acc with h | h <;> simp [h] at h2 ⊢ <;> omega

lemma foldl_insert_eq_append_of_length {olds acc : List (Int × Int)}
    (h : ((olds.foldl (fun acc old => insertOld old acc) acc)).length =
      acc.length + olds.length) :
    olds.foldl (fun acc old => insertOld old acc) acc = acc ++ olds := by
  induction olds generalizing acc with
  | nil => simp
  | cons o os ih =>
    simp only [List.foldl_cons] at h ⊢
    rcases insertOld_length o acc with h2 | h2
    · exfalso
      have h3 := foldl_insert_length_le os (insertOld o acc)
      rw [h2] at h3
      simp at h
      omega
    · have h4 : insertOld o acc = acc ++ [o] := insertOld_eq_append_of_length h2
      rw [h4] at h ⊢
      have h5 : (acc ++ [o]).length = acc.length + 1 := by simp
      rw [ih (by rw [h5]; simp at h ⊢; omega)]
      simp

lemma onePass_length_le (l : List (Int × Int)) : (onePass l).length ≤ l.length := by
  unfold onePass
  rw [sortPairs_length]
  have h := foldl_insert_length_le ((sortPairs l).reverse) []
  simpa [sortPairs_length] using h

lemma onePass_sorted_fix (l : List (Int × Int)) : sortPairs (onePass l) = onePass l := by
  unfold onePass
  exact sortPairs_idem _

lemma onePass_eq_sort_of_length {l : List (Int × Int)}
    (h : (onePass l).length = l.length) : onePass l = sortPairs l := by
  unfold onePass at h ⊢
  rw [sortPairs_length] at h
  have h2 : (((sortPairs l).reverse).foldl (fun acc old => insertOld old acc) []).length
      = (([] : List (Int × Int))).length + ((sortPairs l).reverse).length := by
    rw [h]
    simp [sortPairs_length]
  rw [foldl_insert_eq_append_of_length h2]
  simp only [List.nil_append]
  exact sortPairs_congr ((List.reverse_perm _).trans (sortPairs_perm l))

lemma mergeMeasure_lt {l : List (Int × Int)} (h : l ≠ onePass l) :
    mergeMeasure (onePass l) < mergeMeasure l := by
  have hle := onePass_length_le l
  rcases Nat.lt_or_ge (onePass l).length l.length with hlt | hge
  · unfold mergeMeasure
    have : (if sortPairs (onePass l) = onePass l then 0 else 1) = 0 := by
      simp [onePass_sorted_fix]
    rw [this]
    by_cases hs : sortPairs l = l <;> simp [hs] <;> omega
  · have heq : (onePass l).length = l.length := le_antisymm hle hge
    have hsort : onePass l = sortPairs l := onePass_eq_sort_of_length heq
    have hns : sortPairs l ≠ l := by
      intro hcon
      exact h (by rw [hsort, hcon])
    unfold mergeMeasure
    rw [if_neg hns, onePass_sorted_fix, if_pos rfl, heq]
    omega

lemma mergeMeasure_le (l : List (Int × Int)) : mergeMeasure l ≤ 2 * l.length + 1 := by
  unfold mergeMeasure
  by_cases hs : sortPairs l = l <;> simp [hs]

lemma mergeAux_succ (fuel : Nat) (l : List (Int × Int)) :
    mergeAux (fuel+1) l = if l = onePass l then onePass l else mergeAux fuel (onePass l) := rfl

lemma mergeAux_fuel {f1 f2 : Nat} {l : List (Int × Int)}
    (h1 : mergeMeasure l < f1) (h2 : mergeMeasure l < f2) :
    mergeAux f1 l = mergeAux f2 l := by
  induction f1 generalizing f2 l with
  | zero => omega
  | succ k ih =>
    cases f2 with
    | zero => omega
    | succ k2 =>
      rw [mergeAux_succ, mergeAux_succ]
      by_cases he : l = onePass l
      · rw [if_pos he, if_pos he]
      · rw [if_neg he, if_neg he]
        have hm := mergeMeasure_lt he
        exact ih (by omega) (by omega)

lemma merge_unfold (l : List (Int × Int)) :
    merge_intervals l = if l = onePass l then l else merge_intervals (onePass l) := by
  unfold merge_intervals
  have h1 : 2 * l.length + 2 = (2 * l.length + 1) + 1 := by omega
  rw [h1, mergeAux_succ]
  by_cases he : l = onePass l
  · rw [if_pos he, if_pos he, ← he]
  · rw [if_neg he, if_neg he]
    have hm := mergeMeasure_lt he
    have h2 := mergeMeasure_le l
    have h3 := mergeMeasure_le (onePass l)
    exact mergeAux_fuel (by omega) (by omega)

lemma merge_fix (l : List (Int × Int)) :
    onePass (merge_intervals l) = merge_intervals l := by
  have H : ∀ n (l : List (Int × Int)), mergeMeasure l ≤ n →
      onePass (merge_intervals l) = merge_intervals l := by
    intro n
    induction n with
    | zero =>
      intro l hl
      have h0 : l.length = 0 := by unfold mergeMeasure at hl; omega
      have : l = [] := List.length_eq_zero.mp h0
      subst this
      decide
    | succ k ih =>
      intro l hl
      rw [merge_unfold l]
      by_cases he : l = onePass l
      · rw [if_pos he]
        exact he.symm
      · rw [if_neg he]
        have hm := mergeMeasure_lt he
        exact ih (onePass l) (by omega)
  exact H (mergeMeasure l) l le_rfl

lemma merge_idem (l : List (Int × Int)) :
    merge_intervals (merge_intervals l) = merge_intervals l := by
  rw [merge_unfold (merge_intervals l), if_pos (merge_fix l).symm]

lemma merge_shift (l : List (Int × Int)) :
    merge_intervals l = merge_intervals (onePass l) := by
  by_cases he : l = onePass l
  · have h1 : merge_intervals l = l := by rw [merge_unfold l, if_pos he]
    rw [← he, h1]
  · rw [merge_unfold l, if_neg he]

lemma onePass_congr {l1 l2 : List (Int × Int)} (h : sortPairs l1 = sortPairs l2) :
    onePass l1 = onePass l2 := by
  unfold onePass
  rw [h]

lemma merge_perm {l1 l2 : List (Int × Int)} (h : l1.Perm l2) :
    merge_intervals l1 = merge_intervals l2 := by
  rw [merge_shift l1, merge_shift l2, onePass_congr (sortPairs_congr h)]

lemma memU_perm {t : Int} {l1 l2 : List (Int × Int)} (h : l1.Perm l2) :
    memU t l1 ↔ memU t l2 := by
  unfold memU
  exact ⟨fun ⟨p, h1, h2⟩ => ⟨p, h.mem_iff.mp h1, h2⟩,
         fun ⟨p, h1, h2⟩ => ⟨p, h.mem_iff.mpr h1, h2⟩⟩

lemma memU_insertOld (t : Int) (old : Int × Int) (acc : List (Int × Int)) :
    memU t (insertOld old acc) ↔ inIv t old ∨ memU t acc := by
  induction acc with
  | nil => simp [insertOld, memU]
  | cons new rest ih =>
    by_cases hc : touches old new
    · have key : inIv t (min old.1 new.1, max old.2 new.2) ↔ inIv t old ∨ inIv t new := by
        unfold inIv touches at *
        constructor <;> intro <;> omega
      simp only [insertOld, if_pos hc]
      simp only [memU, List.mem_cons] at ih ⊢
      constructor
      · rintro ⟨p, rfl | hp, h2⟩
        · rcases key.mp h2 with h | h
          · exact Or.inl h
          · exact Or.inr ⟨new, Or.inl rfl, h⟩
        · exact Or.inr ⟨p, Or.inr hp, h2⟩
      · rintro (h | ⟨p, rfl | hp, h2⟩)
        · exact ⟨_, Or.inl rfl, key.mpr (Or.inl h)⟩
        · exact ⟨_, Or.inl rfl, key.mpr (Or.inr h2)⟩
        · exact ⟨p, Or.inr hp, h2⟩
    · simp only [insertOld, if_neg hc]
      simp only [memU, List.mem_cons] at ih ⊢
      constructor
      · rintro ⟨p, rfl | hp, h2⟩
        · exact Or.inr ⟨_, Or.inl rfl, h2⟩
        · rcases ih.mp ⟨p, hp, h2⟩ with h | ⟨q, hq, h3⟩
          · exact Or.inl h
          · exact Or.inr ⟨q, Or.inr hq, h3⟩
      · rintro (h | ⟨p, rfl | hp, h2⟩)
        · rcases ih.mpr (Or.inl h) with ⟨q, hq, h3⟩
          exact ⟨q, Or.inr hq, h3⟩
        · exact ⟨_, Or.inl rfl, h2⟩
        · rcases ih.mpr (Or.inr ⟨p, hp, h2⟩) with ⟨q, hq, h3⟩
          exact ⟨q, Or.inr hq, h3⟩

lemma memU_foldl (t : Int) (olds : List (Int × Int)) (acc : List (Int × Int)) :
    memU t (olds.foldl (fun acc old => insertOld old acc) acc) ↔
      memU t olds ∨ memU t acc := by
  induction olds generalizing acc with
  | nil => simp [memU]
  | cons o os ih =>
    simp only [List.foldl_cons]
    rw [ih, memU_insertOld]
    simp only [memU, List.mem_cons]
    constructor
    · rintro (⟨p, hp, h2⟩ | h | h)
      · exact Or.inl ⟨p, Or.inr hp, h2⟩
      · exact Or.inl ⟨o, Or.inl rfl, h⟩
      · exact Or.inr h
    · rintro (⟨p, rfl | hp, h2⟩ | h)
      · exact Or.inr (Or.inl h2)
      · exact Or.inl ⟨p, hp, h2⟩
      · exact Or.inr (Or.inr h)

lemma memU_onePass (t : Int) (l : List (Int × Int)) :
    memU t (onePass l) ↔ memU t l := by
  unfold onePass
  rw [memU_perm (sortPairs_perm _), memU_foldl,
      memU_perm ((List.reverse_perm _).trans (sortPairs_perm l))]
  simp [memU]

lemma memU_merge (t : Int) (l : List (Int × Int)) :
    memU t (merge_intervals l) ↔ memU t l := by
  have H : ∀ n (l : List (Int × Int)), mergeMeasure l ≤ n →
      (memU t (merge_intervals l) ↔ memU t l) := by
    intro n
    induction n with
    | zero =>
      intro l hl
      have h0 : l.length = 0 := by unfold mergeMeasure at hl; omega
      have : l = [] := List.length_eq_zero.mp h0
      subst this
      rfl
    | succ k ih =>
      intro l hl
      rw [merge_unfold l]
      by_cases he : l = onePass l
      · rw [if_pos he]
      · rw [if_neg he]
        have hm := mergeMeasure_lt he
        rw [ih (onePass l) (by omega)]
        exact memU_onePass t l
  exact H (mergeMeasure l) l le_rfl

lemma charDigit_digitChar {d : Nat} (h : d < 10) : charDigit (Nat.digitChar d) = d := by
  interval_cases d <;> rfl

lemma isDigitCh_digitChar {d : Nat} (h : d < 10) : isDigitCh (Nat.digitChar d) = true := by
  interval_cases d <;> rfl

lemma natCharsAux_all_digits :
    ∀ fuel n, ∀ c ∈ natCharsAux fuel n, isDigitCh c = true := by
  intro fuel
  induction fuel with
  | zero => intro n c hc; simp [natCharsAux] at hc
  | succ k ih =>
    intro n c hc
    by_cases h0 : n = 0
    · simp [natCharsAux, h0] at hc
    · rw [show natCharsAux (k+1) n
          = natCharsAux k (n / 10) ++ [Nat.digitChar (n % 10)] by
        simp [natCharsAux, h0]] at hc
      rcases List.mem_append.mp hc with h | h
      · exact ih (n / 10) c h
      · rw [List.mem_singleton.mp h]
        exact isDigitCh_digitChar (Nat.mod_lt n (by omega))

lemma natChars_all_digits (n : Nat) : ∀ c ∈ natChars n, isDigitCh c = true := by
  intro c hc
  unfold natChars at hc
  by_cases h0 : n = 0
  · rw [if_pos h0] at hc
    rw [List.mem_singleton.mp hc]
    rfl
  · rw [if_neg h0] at hc
    exact natCharsAux_all_digits n n c hc

lemma natCharsAux_ne_nil {fuel n : Nat} (hn : n ≠ 0) (hf : n ≤ fuel) :
    natCharsAux fuel n ≠ [] := by
  cases fuel with
  | zero => omega
  | succ k =>
    simp only [natCharsAux, if_neg hn]
    simp

lemma natChars_ne_nil (n : Nat) : natChars n ≠ [] := by
  unfold natChars
  by_cases h0 : n = 0
  · simp [h0]
  · rw [if_neg h0]
    exact natCharsAux_ne_nil h0 (le_refl n)

lemma foldl_natCharsAux :
    ∀ fuel n, n ≤ fuel → ∀ acc : Nat,
      (natCharsAux fuel n).foldl (fun acc c => 10 * acc + charDigit c) acc
        = acc * 10 ^ (natCharsAux fuel n).length + n := by
  intro fuel
  induction fuel with
  | zero =>
    intro n hn acc
    have : n = 0 := by omega
    simp [natCharsAux, this]
  | succ k ih =>
    intro n hn acc
    by_cases h0 : n = 0
    · simp [natCharsAux, h0]
    · rw [show natCharsAux (k+1) n
          = natCharsAux k (n / 10) ++ [Nat.digitChar (n % 10)] by
        simp [natCharsAux, h0]]
      rw [List.foldl_append, List.length_append]
      have hdiv : n / 10 ≤ k := by omega
      rw [ih (n / 10) hdiv acc]
      simp only [List.foldl_cons, List.foldl_nil, List.length_cons,
        List.length_nil]
      rw [charDigit_digitChar (Nat.mod_lt n (by omega))]
      have hpow : 10 ^ ((natCharsAux k (n / 10)).length + (0 + 1))
          = 10 ^ (natCharsAux k (n / 10)).length * 10 := by
        rw [Nat.zero_add, pow_succ]
      rw [hpow]
      have hmod := Nat.div_add_mod n 10
      ring_nf
      omega

lemma parseNat_natChars (n : Nat) : parseNat (natChars n) = some n := by
  unfold parseNat
  rw [if_pos ⟨natChars_ne_nil n, List.all_eq_true.mpr (natChars_all_digits n)⟩]
  congr 1
  unfold parseNatVal natChars
  by_cases h0 : n = 0
  · simp [h0]
    rfl
  · rw [if_neg h0]
    rw [foldl_natCharsAux n n (le_refl n) 0]
    simp

lemma natChars_head_digit (n : Nat) :
    ∃ c cs, natChars n = c :: cs ∧ isDigitCh c = true := by
  rcases hx : natChars n with _ | ⟨c, cs⟩
  · exact absurd hx (natChars_ne_nil n)
  · exact ⟨c, cs, rfl, natChars_all_digits n c (by rw [hx]; exact List.mem_cons_self _ _)⟩

lemma digit_ne_dash {c : Char} (h : isDigitCh c = true) : c ≠ '-' := by
  intro hc
  subst hc
  simp [isDigitCh] at h

lemma digit_ne_tab {c : Char} (h : isDigitCh c = true) : c ≠ '\t' := by
  intro hc
  subst hc
  simp [isDigitCh] at h

lemma parseInt_intChars (n : Int) : parseInt (intChars n) = some n := by
  unfold intChars
  by_cases hn : n < 0
  · rw [if_pos hn]
    show parseInt ('-' :: natChars n.natAbs) = some n
    simp only [parseInt, if_pos rfl]
    rw [parseNat_natChars]
    simp only [Option.map_some']
    rw [if_pos trivial]
    exact congrArg some (by omega)
  · rw [if_neg hn]
    rcases natChars_head_digit n.toNat with ⟨c, cs, hx, hd⟩
    rw [hx]
    simp only [parseInt, if_neg (digit_ne_dash hd)]
    rw [← hx, parseNat_natChars]
    simp only [Option.map_some']
    congr 1
    omega

lemma intChars_tab_free (n : Int) : '\t' ∉ intChars n := by
  intro hmem
  unfold intChars at hmem
  by_cases hn : n < 0
  · rw [if_pos hn] at hmem
    rcases List.mem_cons.mp hmem with h | h
    · exact absurd h.symm (by decide)
    · exact digit_ne_tab (natChars_all_digits _ _ h) rfl
  · rw [if_neg hn] at hmem
    exact digit_ne_tab (natChars_all_digits _ _ hmem) rfl

lemma splitChAux_no_sep {sep : Char} {f : List Char} (hf : sep ∉ f) :
    ∀ cur, splitChAux sep cur f = [cur.reverse ++ f] := by
  induction f with
  | nil => intro cur; simp [splitChAux]
  | cons c cs ih =>
    intro cur
    have hc : c ≠ sep := fun h => hf (h ▸ List.mem_cons_self _ _)
    have hf2 : sep ∉ cs := fun h => hf (List.mem_cons_of_mem _ h)
    simp only [splitChAux, if_neg hc]
    rw [ih hf2]
    simp

lemma splitChAux_sep {sep : Char} {f : List Char} (hf : sep ∉ f) :
    ∀ cur cs, splitChAux sep cur (f ++ sep :: cs)
      = (cur.reverse ++ f) :: splitChAux sep [] cs := by
  induction f with
  | nil => intro cur cs; simp [splitChAux]
  | cons c cs0 ih =>
    intro cur cs
    have hc : c ≠ sep := fun h => hf (h ▸ List.mem_cons_self _ _)
    have hf2 : sep ∉ cs0 := fun h => hf (List.mem_cons_of_mem _ h)
    simp only [List.cons_append, splitChAux, if_neg hc, List.append_eq]
    rw [ih hf2]
    simp

lemma splitTab_joinTab {fs : List (List Char)} (hne : fs ≠ [])
    (hf : ∀ f ∈ fs, '\t' ∉ f) : splitTab (joinTab fs) = fs := by
  induction fs with
  | nil => exact absurd rfl hne
  | cons f rest ih =>
    cases rest with
    | nil =>
      show splitChAux '\t' [] (joinTab [f]) = [f]
      rw [show joinTab [f] = f from rfl, splitChAux_no_sep (hf f (List.mem_cons_self _ _)) []]
      rfl
    | cons g gs =>
      show splitChAux '\t' [] (joinTab (f :: g :: gs)) = f :: g :: gs
      rw [show joinTab (f :: g :: gs) = f ++ '\t' :: joinTab (g :: gs) from rfl]
      rw [splitChAux_sep (hf f (List.mem_cons_self _ _)) [] (joinTab (g :: gs))]
      rw [show splitChAux '\t' [] (joinTab (g :: gs)) = splitTab (joinTab (g :: gs)) from rfl]
      rw [ih (by simp) (fun x hx => hf x (List.mem_cons_of_mem _ hx))]
      rfl

lemma orNone_strOfOpt (o : Option (List Char)) : orNone (some (strOfOpt o)) = orNone o := by
  cases o <;> rfl

lemma shiftOfRow_rowOfShift {s : Shift} (h : tabFree s) :
    shiftOfRow (rowOfShift s) = .ok (normalizeShift s) := by
  unfold shiftOfRow rowOfShift
  rw [splitTab_joinTab (by simp)]
  · simp only [shiftOfFields]
    rw [parseInt_intChars, parseInt_intChars]
    show Except.ok (mkShift s.start s.stop (some (strOfOpt s.name))
      (some (strOfOpt s.email)) (some (strOfOpt s.phone))) = _
    unfold mkShift normalizeShift
    rw [orNone_strOfOpt, orNone_strOfOpt]
  · intro f hf
    rcases h with ⟨h1, h2, h3⟩
    simp only [List.mem_cons, List.not_mem_nil, or_false] at hf
    rcases hf with rfl | rfl | rfl | rfl | rfl
    · exact intChars_tab_free _
    · exact intChars_tab_free _
    · exact h1
    · exact h2
    · exact h3

lemma mapE_save {S : List Shift} (h : ∀ s ∈ S, tabFree s) :
    mapE shiftOfRow (save_cache S) = .ok (S.map normalizeShift) := by
  induction S with
  | nil => rfl
  | cons s rest ih =>
    show mapE shiftOfRow (rowOfShift s :: save_cache rest) = _
    simp only [mapE]
    rw [shiftOfRow_rowOfShift (h s (List.mem_cons_self _ _)),
        ih (fun x hx => h x (List.mem_cons_of_mem _ hx))]
    rfl

/-- Claim C2: runway scenarios (instants in minutes relative to now = 0):
contiguous shifts ending at +2h/+5h give runway +5h, a gap after +2h gives
runway +2h, and a roster whose earliest shift starts in the future gives
runway = now. -/
theorem C2_runway_scenarios :
    runway 0 [⟨-60, 120, none, none, none⟩, ⟨120, 300, none, none, none⟩] = 300
    ∧ runway 0 [⟨-60, 120, none, none, none⟩, ⟨180, 300, none, none, none⟩] = 120
    ∧ runway 0 [⟨60, 180, none, none, none⟩] = 0 := by
  refine ⟨?_, ?_, ?_⟩ <;> decide

/-- Claim C5: the legacy `Roster.report` raises `AttributeError` on every
input before producing any per-day entry. -/
theorem C5_report_always_raises (dateFrom dateTo : PyVal) :
    report dateFrom dateTo = Except.error PyErr.attributeError := by
  cases dateFrom <;> cases dateTo <;> rfl

/-- Counterexample to claim C6 as stated: on empty input `find_overlaps` does
not return an empty result — popping the first element of the empty sorted
list raises `IndexError`. -/
theorem C6_counterexample :
    find_overlaps ([] : List (Int × Int)) = Except.error PyErr.indexError
    ∧ find_overlaps ([] : List (Int × Int)) ≠ Except.ok [] :=
  ⟨rfl, fun h => nomatch h⟩

/-- Claim C6 (amended): empty input gives an empty result for `merge_intervals`
but an `IndexError` for `find_overlaps`; a single interval is returned
unchanged by `merge_intervals` while `find_overlaps` returns no overlap; and
`find_overlaps [(0,10),(5,15)]` returns `[(5,10)]`. -/
theorem C6_edge_cases :
    merge_intervals ([] : List (Int × Int)) = []
    ∧ find_overlaps ([] : List (Int × Int)) = Except.error PyErr.indexError
    ∧ (∀ p : Int × Int, merge_intervals [p] = [p] ∧ find_overlaps [p] = Except.ok [])
    ∧ find_overlaps [(0,10),(5,15)] = Except.ok [(5,10)] := by
  refine ⟨rfl, rfl, ?_, rfl⟩
  intro p
  constructor
  · unfold merge_intervals mergeAux onePass
    simp [sortPairs, List.insertionSort, List.orderedInsert, insertOld]
  · rfl

/-- Counterexample to claim C7 as stated: with an existing one-row cache file
and two new shifts to save, the truncated (empty) file is an observable
intermediate state that is neither the complete old file nor the complete new
file, so a concurrent reader can see a partially-written cache. -/
theorem C7_counterexample :
    ([] : List (List Char)) ∈
      saveStates (save_cache [⟨0, 1, none, none, none⟩])
        [⟨2, 3, none, none, none⟩, ⟨4, 5, none, none, none⟩]
    ∧ ([] : List (List Char)) ≠ save_cache [⟨0, 1, none, none, none⟩]
    ∧ ([] : List (List Char)) ≠
        save_cache [⟨2, 3, none, none, none⟩, ⟨4, 5, none, none, none⟩] := by
  refine ⟨?_, by decide, by decide⟩
  show _ ∈ _ :: _
  refine List.mem_cons_of_mem _ (List.mem_map.mpr ⟨0, ?_, rfl⟩)
  simp

/-- Claim C7 (amended): `_save_cache` overwrites the destination in place —
`open(..., 'wb')` truncates the file and the rows are then appended in order.
A concurrent reader can observe the old content, the truncated empty file, or
any prefix of the new rows; only the final observable state is the complete
new serialisation. -/
theorem C7_save_in_place (old : List (List Char)) (shifts : List Shift) :
    (saveStates old shifts).getLast? = some (save_cache shifts)
    ∧ ([] : List (List Char)) ∈ saveStates old shifts
    ∧ ∀ st ∈ saveStates old shifts, st = old ∨ ∃ k, st = save_cache (shifts.take k) := by
  refine ⟨?_, ?_, ?_⟩
  · show ((old :: _ : List _)).getLast? = _
    rw [List.range_succ, List.map_append]
    simp only [List.map_cons, List.map_nil]
    rw [show (old :: ((List.range shifts.length).map
        (fun k => save_cache (shifts.take k)) ++ [save_cache (shifts.take shifts.length)]))
      = (old :: (List.range shifts.length).map (fun k => save_cache (shifts.take k)))
        ++ [save_cache (shifts.take shifts.length)] from rfl]
    rw [List.getLast?_concat, List.take_length]
  · refine List.mem_cons_of_mem _ (List.mem_map.mpr ⟨0, ?_, rfl⟩)
    simp
  · intro st hst
    rcases List.mem_cons.mp hst with h | h
    · exact Or.inl h
    · rcases List.mem_map.mp h with ⟨k, _, rfl⟩
      exact Or.inr ⟨k, rfl⟩

/-- Claim C3: for any collection of well-formed intervals, `merge_intervals`
is idempotent, invariant under permutation of its input, and (for non-empty
input) preserves the union of the intervals as a set of time points. -/
theorem C3_merge_algebra (X : List (Int × Int)) (hwf : ∀ p ∈ X, p.1 ≤ p.2) :
    merge_intervals (merge_intervals X) = merge_intervals X
    ∧ (∀ Y, X.Perm Y → merge_intervals X = merge_intervals Y)
    ∧ (X ≠ [] → ∀ t : Int, memU t (merge_intervals X) ↔ memU t X) :=
  ⟨merge_idem X, fun _ h => merge_perm h, fun _ t => memU_merge t X⟩

/-- Witness for C3 at the concrete interval set `[(0,2),(1,5)]`. -/
theorem C3_witness :
    (∀ p ∈ [((0:Int),(2:Int)), ((1:Int),(5:Int))], p.1 ≤ p.2)
    ∧ merge_intervals (merge_intervals [((0:Int),(2:Int)), ((1:Int),(5:Int))])
      = merge_intervals [((0:Int),(2:Int)), ((1:Int),(5:Int))] :=
  ⟨by decide, (C3_merge_algebra [((0:Int),(2:Int)), ((1:Int),(5:Int))] (by decide)).1⟩

/-- Counterexample to claim C1 as stated: a stale state with a valid one-shift
cache file whose refresh fails.  The claim says the operation falls back to
loading the persisted cache with query results identical to a direct load;
instead both the explicit `update_cache` and the lazy population leave the
in-memory collection unpopulated (while a direct load succeeds), and a
subsequent in-window query raises `TypeError` instead of serving the loaded
shifts. -/
theorem C1_counterexample :
    (update_cache (Except.error ())
      ⟨none, some (0, save_cache [⟨1, 2, some ['a'], none, none⟩]), 5, none, 100, 30⟩).data = none
    ∧ (init_data (Except.error ())
      ⟨none, some (0, save_cache [⟨1, 2, some ['a'], none, none⟩]), 5, none, 100, 30⟩).data = none
    ∧ loadCacheSt
      ⟨none, some (0, save_cache [⟨1, 2, some ['a'], none, none⟩]), 5, none, 100, 30⟩
      = Except.ok [⟨1, 2, some ['a'], none, none⟩]
    ∧ (query (Except.error ()) (fun _ _ => []) 5 10
      ⟨none, some (0, save_cache [⟨1, 2, some ['a'], none, none⟩]), 5, none, 100, 30⟩).2
      = Except.error PyErr.typeError := by
  refine ⟨rfl, ?_, ?_, ?_⟩ <;> decide

/-- Claim C1 (amended): when the external call fails, `update_cache` leaves
the in-memory collection and the persisted cache file (contents and
timestamp) entirely unchanged and simply returns; no fallback load of the
persisted cache occurs — in particular a stale lazy population ends with the
in-memory collection still unpopulated — and nothing in `update_cache` is
fatal. -/
theorem C1_update_failure_frame (e : Unit) (s : RosterState) :
    update_cache (Except.error e) s = s
    ∧ (stale s = true → init_data (Except.error e) s = s) := by
  constructor
  · rfl
  · intro h
    unfold init_data
    rw [h]
    rfl

/-- Witness for C1 at a concrete stale state. -/
theorem C1_witness :
    stale ⟨none, none, 0, none, 100, 30⟩ = true
    ∧ init_data (Except.error ()) ⟨none, none, 0, none, 100, 30⟩
      = ⟨none, none, 0, none, 100, 30⟩ :=
  ⟨rfl, (C1_update_failure_frame () ⟨none, none, 0, none, 100, 30⟩).2 rfl⟩

/-- Counterexample to claim C9 as stated: for the empty shift collection the
round-trip does not yield the collection back — `load_cache` rejects the
empty file with `ValueError` (`'Cache is empty.'`). -/
theorem C9_counterexample :
    load_cache 0 (save_cache ([] : List Shift)) = Except.error PyErr.valueError
    ∧ load_cache 0 (save_cache ([] : List Shift))
      ≠ Except.ok (([] : List Shift).map normalizeShift) :=
  ⟨rfl, fun h => nomatch h⟩

/-- Claim C9 (amended): for every non-empty shift collection whose first
shift starts at-or-before the roster's `min_end` and whose textual fields are
free of the tab delimiter, loading the saved cache yields the collection
back, with absent optional fields normalised (an absent name becomes the
empty string, empty contact fields become absent). -/
theorem C9_roundtrip (S : List Shift) (minEnd : Int)
    (hne : S ≠ [])
    (hhead : ∀ s0, S.head? = some s0 → s0.start ≤ minEnd)
    (htab : ∀ s ∈ S, tabFree s) :
    load_cache minEnd (save_cache S) = Except.ok (S.map normalizeShift) := by
  unfold load_cache
  rw [mapE_save htab]
  cases S with
  | nil => exact absurd rfl hne
  | cons s0 rest =>
    simp only [List.map_cons]
    have hs0 : s0.start ≤ minEnd := hhead s0 rfl
    rw [if_neg (by show ¬(minEnd < (normalizeShift s0).start); unfold normalizeShift; simp; omega)]

/-- Witness for C9 at a concrete one-shift collection. -/
theorem C9_witness :
    (∀ s ∈ [(⟨0, 5, some ['b'], none, some ['7']⟩ : Shift)], tabFree s)
    ∧ load_cache 3 (save_cache [(⟨0, 5, some ['b'], none, some ['7']⟩ : Shift)])
      = Except.ok ([(⟨0, 5, some ['b'], none, some ['7']⟩ : Shift)].map normalizeShift) := by
  refine ⟨by decide, C9_roundtrip _ 3 (by simp) ?_ (by decide)⟩
  intro s0 h
  rw [show s0 = (⟨0, 5, some ['b'], none, some ['7']⟩ : Shift) by cases h; rfl]
  decide

/-- Claim C10: `load_cache` fails with `ValueError` not only on an empty
cache but also whenever the first (earliest) cached shift starts strictly
after `min_end`, and in that situation the lazy population path of
`_init_data` turns the failure into a full refresh. -/
theorem C10_load_rejects (s : RosterState) (ts : Int) (rows : List (List Char))
    (d0 : Shift) (ds : List Shift)
    (hfile : s.file = some (ts, rows))
    (hparse : mapE shiftOfRow rows = Except.ok (d0 :: ds))
    (hlate : s.minEnd < d0.start)
    (hfresh : stale s = false) :
    loadCacheSt s = Except.error PyErr.valueError
    ∧ (∀ g, init_data g s = update_cache g s)
    ∧ (∀ minEnd : Int, load_cache minEnd [] = Except.error PyErr.valueError) := by
  have hload : loadCacheSt s = Except.error PyErr.valueError := by
    unfold loadCacheSt
    rw [hfile]
    show load_cache s.minEnd rows = Except.error PyErr.valueError
    unfold load_cache
    rw [hparse]
    show (if s.minEnd < d0.start then Except.error PyErr.valueError
      else Except.ok (d0 :: ds)) = Except.error PyErr.valueError
    rw [if_pos hlate]
  refine ⟨hload, ?_, fun _ => rfl⟩
  intro g
  unfold init_data
  rw [hfresh, hload]
  rfl

/-- Witness for C10 at a concrete fresh state whose cached shift starts after
`min_end`. -/
theorem C10_witness :
    stale ⟨none, some (90, save_cache [⟨7, 9, none, none, none⟩]), 0, none, 100, 30⟩ = false
    ∧ mapE shiftOfRow (save_cache [(⟨7, 9, none, none, none⟩ : Shift)])
      = Except.ok [normalizeShift ⟨7, 9, none, none, none⟩]
    ∧ loadCacheSt ⟨none, some (90, save_cache [⟨7, 9, none, none, none⟩]), 0, none, 100, 30⟩
      = Except.error PyErr.valueError := by
  refine ⟨rfl, by decide, ?_⟩
  exact (C10_load_rejects
    ⟨none, some (90, save_cache [⟨7, 9, none, none, none⟩]), 0, none, 100, 30⟩
    90 (save_cache [⟨7, 9, none, none, none⟩])
    (normalizeShift ⟨7, 9, none, none, none⟩) []
    rfl (by decide) (by decide) rfl).1

/-- Claim C4: assuming the external event source honours its window contract
(it only returns shifts overlapping the requested window, as the calendar API
`timeMin`/`timeMax` parameters specify), `Roster.query` (a) on a populated
in-memory collection and an in-window range returns exactly the in-memory
shifts satisfying `shift.end > start AND shift.start < end`, and (b) never
returns a shift with `shift.end ≤ start` or `shift.start ≥ end`, whatever the
input. -/
theorem C4_query_window (g : Except Unit (List Shift)) (gq : Int → Int → List Shift)
    (Hgq : ∀ x y sh, sh ∈ gq x y → sh.stop > x ∧ sh.start < y) :
    (∀ s d a b, s.data = some d → s.minEnd ≤ a →
      (∀ m, s.maxStart = some m → b ≤ m) →
      query g gq a b s = (s, Except.ok (d.filter (overlapB a b))))
    ∧ (∀ a b s s2 res, query g gq a b s = (s2, Except.ok res) →
      ∀ sh ∈ res, ¬(sh.stop ≤ a ∨ b ≤ sh.start)) := by
  constructor
  · intro s d a b hdata hmin hmax
    have hscope : outOfScope a b s = false := by
      unfold outOfScope
      rcases hm : s.maxStart with _ | m
      · simp
        omega
      · simp
        constructor
        · omega
        · have := hmax m hm
          omega
    unfold query
    rw [hscope]
    show (match dataGet g s with
      | (s2, none) => (s2, Except.error PyErr.typeError)
      | (s2, some d) => (s2, Except.ok (d.filter (overlapB a b)))) = _
    unfold dataGet
    rw [hdata]
  · intro a b s s2 res heq sh hsh
    unfold query at heq
    by_cases hscope : outOfScope a b s = true
    · rw [hscope] at heq
      simp only [if_true] at heq
      have hres : res = gq a b := by
        have := congrArg Prod.snd heq
        simp at this
        exact this.symm
      subst hres
      have := Hgq a b sh hsh
      omega
    · rw [Bool.not_eq_true] at hscope
      rw [hscope] at heq
      simp only [Bool.false_eq_true, if_false] at heq
      rcases hget : dataGet g s with ⟨s3, d3⟩
      rw [hget] at heq
      cases d3 with
      | none => exact absurd (congrArg Prod.snd heq) (by simp)
      | some d =>
        have hres : res = d.filter (overlapB a b) := by
          have := congrArg Prod.snd heq
          simp at this
          exact this.symm
        subst hres
        have hmem := List.mem_filter.mp hsh
        have hov := hmem.2
        unfold overlapB at hov
        simp at hov
        omega

/-- Witness for C4: a trivially window-honouring external source and a
populated in-window state. -/
theorem C4_witness :
    (∀ x y sh, sh ∈ ((fun _ _ => []) : Int → Int → List Shift) x y →
      sh.stop > x ∧ sh.start < y)
    ∧ query (Except.ok []) (fun _ _ => []) 1 4
        ⟨some [⟨0, 2, none, none, none⟩], none, 0, none, 50, 30⟩
      = (⟨some [⟨0, 2, none, none, none⟩], none, 0, none, 50, 30⟩,
         Except.ok ([⟨0, 2, none, none, none⟩].filter (overlapB 1 4))) := by
  refine ⟨by simp, ?_⟩
  exact (C4_query_window (Except.ok []) (fun _ _ => []) (by simp)).1
    ⟨some [⟨0, 2, none, none, none⟩], none, 0, none, 50, 30⟩
    [⟨0, 2, none, none, none⟩] 1 4 rfl (by decide) (fun m h => nomatch h)

/-- Claim C8: for an out-of-window range (`start < min_end`, or `end` beyond
a set `max_start`), `Roster.query` bypasses the cache entirely: it returns
the direct external fetch for exactly the requested range, the roster state
(in-memory collection and persisted cache file alike) is left untouched, and
— given the external source's window contract — every returned shift
overlaps the requested range. -/
theorem C8_query_bypass (g : Except Unit (List Shift)) (gq : Int → Int → List Shift)
    (a b : Int) (s : RosterState)
    (hout : a < s.minEnd ∨ ∃ m, s.maxStart = some m ∧ b > m)
    (Hgq : ∀ x y sh, sh ∈ gq x y → sh.stop > x ∧ sh.start < y) :
    query g gq a b s = (s, Except.ok (gq a b))
    ∧ (∀ sh ∈ gq a b, sh.stop > a ∧ sh.start < b) := by
  have hscope : outOfScope a b s = true := by
    unfold outOfScope
    rcases hout with h | ⟨m, hm, h⟩
    · simp
      omega
    · rw [hm]
      simp
      omega
  constructor
  · unfold query
    rw [hscope]
    rfl
  · intro sh hsh
    exact Hgq a b sh hsh

/-- Witness for C8 at a concrete out-of-window query. -/
theorem C8_witness :
    ((0:Int) < (5:Int) ∨ ∃ m, (none : Option Int) = some m ∧ (3:Int) > m)
    ∧ query (Except.ok []) (fun _ _ => []) 0 3
        ⟨some [], none, 5, none, 50, 30⟩
      = (⟨some [], none, 5, none, 50, 30⟩, Except.ok ((fun _ _ => ([] : List Shift)) 0 3)) := by
  refine ⟨Or.inl (by omega), ?_⟩
  exact (C8_query_bypass (Except.ok []) (fun _ _ => []) 0 3
    ⟨some [], none, 5, none, 50, 30⟩ (Or.inl (by decide)) (by simp)).1
